import Mathlib

set_option maxRecDepth 100000

/-!
Verification of the MemoryPoolAllocator repository: a pool of fixed-size-block
buckets, each tracking occupancy in a bitmap ("ledger", one bit per block,
byte 0 first, most-significant bit first inside a byte), fronted by a
dispatcher that sorts buckets by wasted bytes and delegates to the first
bucket whose allocation succeeds.

The embedding below follows the C++ source (`bucket`,
`info`, `MemoryPoolAllocator`).  `size_t` values are modelled as `Nat`;
the one place where unsigned 64-bit wraparound is observable
(`bytes - 1` with `bytes = 0` in the block-count computation) is modelled
with an explicit `% 2 ^ 64`.  `uint8_t` ledger bytes are modelled as `Nat`
together with the well-formedness predicate `WFledger` (every byte < 256).
Arena pointers are modelled as natural addresses: a bucket stores its
arena base address and `allocate` returns `base + index * BlockSize`.
-/

namespace MemPool

/-- Wraparound modulus of `size_t` (the source targets 64-bit). -/
def U64 : Nat := 2 ^ 64

/-- Mirrors `1 + ((BlockCount - 1) / 8)`, the ledger size in bytes.
With `Nat` subtraction this agrees with the C++ `size_t` computation for
every `BlockCount ≥ 1`; the constructor contract requires `block_count > 0`. -/
def ledgerSize (blockCount : Nat) : Nat := 1 + (blockCount - 1) / 8

/-- Mirrors `n = 1 + ((bytes - 1) / BlockSize)` computed in `size_t`
arithmetic: for `bytes = 0` the subtraction wraps to `2^64 - 1`. -/
def blocksNeeded (blockSize bytes : Nat) : Nat :=
  1 + ((bytes + (U64 - 1)) % U64) / blockSize

/-- The bits of one ledger byte in scan order: the inner loop of
`find_contiguous_blocks` walks `j = 7, 6, ..., 0` and tests `cur & (1 << j)`,
so block `8*i + t` of byte `i` is bit `7 - t`. -/
def byteBits (b : Nat) : List Bool :=
  [b.testBit 7, b.testBit 6, b.testBit 5, b.testBit 4,
   b.testBit 3, b.testBit 2, b.testBit 1, b.testBit 0]

/-- All ledger bits in scan order (byte 0 first, MSB first inside a byte). -/
def ledgerBits : List Nat → List Bool
  | [] => []
  | b :: rest => byteBits b ++ ledgerBits rest

/-- Bit of global block index `k`: byte `k / 8`, bit `7 - k % 8`.
`true` means the block is in use. -/
def ledgerBit (l : List Nat) (k : Nat) : Bool :=
  (l.getD (k / 8) 0).testBit (7 - k % 8)

/-- When the scan sees a set bit at block `k` (byte `i = k / 8`, bit
`j = 7 - k % 8`) the source records `begin_index = i` and
`shift = (8 - j) % 8`; the candidate start it would later return is
`8 * begin_index + shift`, which is this value.  Note the off-by-one:
for `k % 8 = 7` (`j = 0`) this is `8 * i`, not `k + 1 = 8 * i + 8`. -/
def resumeIndex (k : Nat) : Nat := 8 * (k / 8) + ((k % 8 + 1) % 8)

/-- The flattened scan of `find_contiguous_blocks`: walk the ledger bits in
scan order keeping the running count of consecutive free bits and the
candidate start index; a set bit resets the count and moves the candidate
start to `resumeIndex`; when the count reaches `n` return the candidate
start; `none` stands for the source's fall-through `return BlockCount`. -/
def findLoop (n : Nat) : List Bool → Nat → Nat → Nat → Option Nat
  | [], _, _, _ => none
  | b :: rest, k, count, start =>
    if b then
      findLoop n rest (k + 1) 0 (resumeIndex k)
    else if count + 1 = n then
      some start
    else
      findLoop n rest (k + 1) (count + 1) start

/-- Mirrors the first-byte mask of `set_used`/`set_free`:
`mask = (1 << (8 - bit_index)) - 1`, minus `(1 << (8 - bit_index - n)) - 1`
when fewer bits than the rest of the byte are needed. -/
def maskFirst (bitIndex n : Nat) : Nat :=
  if n < 8 - bitIndex then
    (2 ^ (8 - bitIndex) - 1) - (2 ^ (8 - bitIndex - n) - 1)
  else
    2 ^ (8 - bitIndex) - 1

/-- Mirrors the loop mask: `0xFF`, minus `(1 << (8 - bits_to_set)) - 1`
when fewer than 8 bits remain. -/
def maskFull (bitsToSet : Nat) : Nat :=
  if bitsToSet < 8 then 255 - (2 ^ (8 - bitsToSet) - 1) else 255

/-- `ledger_[i] |= m` on byte `i`. -/
def orAt (l : List Nat) (i m : Nat) : List Nat := l.set i (l.getD i 0 ||| m)

/-- `ledger_[i] &= m` on byte `i`. -/
def andAt (l : List Nat) (i m : Nat) : List Nat := l.set i (l.getD i 0 &&& m)

/-- The `while (bits_remaining > 0)` loop of `set_used`. -/
def setUsedLoop (l : List Nat) (byteIndex rem : Nat) : List Nat :=
  if rem = 0 then l
  else
    setUsedLoop (orAt l byteIndex (maskFull (min rem 8))) (byteIndex + 1)
      (rem - min rem 8)
termination_by rem
decreasing_by omega

/-- `bucket::set_used(index, n)`: first-byte mask, then full/trailing bytes. -/
def set_used (l : List Nat) (index n : Nat) : List Nat :=
  setUsedLoop (orAt l (index / 8) (maskFirst (index % 8) n)) (index / 8 + 1)
    (n - min n (8 - index % 8))

/-- The `while (bits_remaining > 0)` loop of `set_free`; the byte complement
`~mask` of a `uint8_t` mask `m ≤ 255` is `255 - m`. -/
def setFreeLoop (l : List Nat) (byteIndex rem : Nat) : List Nat :=
  if rem = 0 then l
  else
    setFreeLoop (andAt l byteIndex (255 - maskFull (min rem 8))) (byteIndex + 1)
      (rem - min rem 8)
termination_by rem
decreasing_by omega

/-- `bucket::set_free(index, n)`. -/
def set_free (l : List Nat) (index n : Nat) : List Nat :=
  setFreeLoop (andAt l (index / 8) (255 - maskFirst (index % 8) n)) (index / 8 + 1)
    (n - min n (8 - index % 8))

/-- One bucket: the two immutable parameters, the arena base address, and
the occupancy ledger. -/
structure Bucket where
  BlockSize : Nat
  BlockCount : Nat
  base : Nat
  ledger : List Nat
deriving DecidableEq

/-- The zeroed ledger produced by the constructor's `memset`. -/
def freshLedger (blockCount : Nat) : List Nat :=
  List.replicate (ledgerSize blockCount) 0

/-- `bucket(block_size, block_count)` with arena base `base`. -/
def Bucket.make (blockSize blockCount base : Nat) : Bucket :=
  ⟨blockSize, blockCount, base, freshLedger blockCount⟩

/-- `bucket::find_contiguous_blocks(n)`; returns `BlockCount` when no run
of `n` free bits is found before the ledger bytes are exhausted. -/
def Bucket.find_contiguous_blocks (bk : Bucket) (n : Nat) : Nat :=
  match findLoop n (ledgerBits bk.ledger) 0 0 0 with
  | some idx => idx
  | none => bk.BlockCount

/-- `bucket::allocate(bytes)`: `nullptr` is `none`; a returned pointer is
the natural address `base + index * BlockSize`.  The failure path performs
no write, so the unchanged bucket is returned there. -/
def Bucket.allocate (bk : Bucket) (bytes : Nat) : Option Nat × Bucket :=
  let n := blocksNeeded bk.BlockSize bytes
  let index := bk.find_contiguous_blocks n
  if index = bk.BlockCount then
    (none, bk)
  else
    (some (bk.base + index * bk.BlockSize),
     { bk with ledger := set_used bk.ledger index n })

/-- `bucket::deallocate(ptr, bytes)`. -/
def Bucket.deallocate (bk : Bucket) (ptr bytes : Nat) : Bucket :=
  let index := (ptr - bk.base) / bk.BlockSize
  let n := blocksNeeded bk.BlockSize bytes
  { bk with ledger := set_free bk.ledger index n }

/-- `bucket::belongs(ptr)`. -/
def Bucket.belongs (bk : Bucket) (ptr : Nat) : Bool :=
  decide (bk.base ≤ ptr) && decide (ptr < bk.base + bk.BlockSize * bk.BlockCount)

/-- Ledger bytes are `uint8_t` values. -/
def WFledger (l : List Nat) : Prop := ∀ x ∈ l, x < 256

/-- Constructor contract (`block_size > 0`, `block_count > 0`) plus the
representation facts that hold for a really constructed bucket. -/
def Bucket.WF (bk : Bucket) : Prop :=
  1 ≤ bk.BlockSize ∧ 1 ≤ bk.BlockCount ∧
    bk.ledger.length = ledgerSize bk.BlockCount ∧ WFledger bk.ledger

/-- The per-bucket selection score of `MemoryPoolAllocator::allocate`. -/
structure Info where
  index : Nat
  block_count : Nat
  waste : Nat
deriving DecidableEq

/-- `info::operator<`: waste first, block count on waste ties. -/
def Info.lt (a b : Info) : Bool :=
  if a.waste = b.waste then decide (a.block_count < b.block_count)
  else decide (a.waste < b.waste)

/-- A value for out-of-range `List.getD` accesses; every in-range access in
the development is to a real pool element. -/
def defaultBucket : Bucket := ⟨0, 0, 0, []⟩

/-- The score the dispatcher computes for bucket `i` of the pool. -/
def score (pool : List Bucket) (bytes i : Nat) : Info :=
  let bk := pool.getD i defaultBucket
  if bk.BlockSize ≥ bytes then
    ⟨i, 1, bk.BlockSize - bytes⟩
  else
    let n := blocksNeeded bk.BlockSize bytes
    ⟨i, n, n * bk.BlockSize - bytes⟩

/-- The `options` array, one score per bucket in pool order. -/
def scoreList (pool : List Bucket) (bytes : Nat) : List Info :=
  (List.range pool.length).map (score pool bytes)

/-- The comparison `std::sort` receives, as a non-strict relation:
`a` may precede `b` unless `b < a`. -/
def infoLe (a b : Info) : Bool := ! Info.lt b a

/-- The delegation loop of `MemoryPoolAllocator::allocate`: try the buckets
in the sorted option order and return the first non-null result; falling
off the end is the `throw std::bad_alloc{}` path, modelled as `none` with
the untouched pool. -/
def tryAllocate (pool : List Bucket) (bytes : Nat) : List Info → Option Nat × List Bucket
  | [] => (none, pool)
  | o :: rest =>
    match (pool.getD o.index defaultBucket).allocate bytes with
    | (some a, bk) => (some a, pool.set o.index bk)
    | (none, _) => tryAllocate pool bytes rest

/-- `MemoryPoolAllocator::allocate(bytes)`: score, sort, delegate. -/
def MPA.allocate (pool : List Bucket) (bytes : Nat) : Option Nat × List Bucket :=
  tryAllocate pool bytes ((scoreList pool bytes).mergeSort infoLe)

/-- `MemoryPoolAllocator::deallocate`: delegate to the first bucket whose
`belongs` holds; a silent no-op when none does. -/
def deallocLoop (ptr bytes : Nat) : List Bucket → List Bucket
  | [] => []
  | bk :: rest =>
    if bk.belongs ptr then bk.deallocate ptr bytes :: rest
    else bk :: deallocLoop ptr bytes rest

/-- Dispatcher deallocate over the whole pool. -/
def MPA.deallocate (pool : List Bucket) (ptr bytes : Nat) : List Bucket :=
  deallocLoop ptr bytes pool

end MemPool

namespace MemPool

/-! ### Basic byte and bit lemmas -/

theorem testBit_of_lt_256 {x : Nat} (hx : x < 256) {t : Nat} (ht : 8 ≤ t) :
    x.testBit t = false := by
  apply Nat.testBit_lt_two_pow
  calc x < 256 := hx
    _ = 2 ^ 8 := by norm_num
    _ ≤ 2 ^ t := Nat.pow_le_pow_right (by norm_num) ht

theorem compl_testBit_aux :
    ∀ m < 256, ∀ t < 8, (255 - m).testBit t = ! m.testBit t := by
  decide

theorem compl_testBit {m t : Nat} (hm : m < 256) (ht : t < 8) :
    (255 - m).testBit t = ! m.testBit t :=
  compl_testBit_aux m hm t ht

theorem set_self (l : List Nat) (i : Nat) (hi : i < l.length) :
    l.set i l[i] = l := by
  apply List.ext_getElem (by simp)
  intro n h1 h2
  rw [List.getElem_set]
  split
  next heq => subst heq; rfl
  next => rfl

theorem getD_set_eq (l : List Nat) (i v : Nat) (hi : i < l.length) :
    (l.set i v).getD i 0 = v := by
  rw [List.getD_eq_getElem?_getD, List.getElem?_set_self hi]
  rfl

theorem getD_set_ne (l : List Nat) (i j v : Nat) (hij : i ≠ j) :
    (l.set i v).getD j 0 = l.getD j 0 := by
  rw [List.getD_eq_getElem?_getD, List.getElem?_set_ne hij, ← List.getD_eq_getElem?_getD]

theorem ledgerBit_set_eq (l : List Nat) (b v k : Nat) (hb : b < l.length)
    (hk : k / 8 = b) : ledgerBit (l.set b v) k = v.testBit (7 - k % 8) := by
  unfold ledgerBit
  rw [hk, getD_set_eq _ _ _ hb]

theorem ledgerBit_set_ne (l : List Nat) (b v k : Nat) (hk : k / 8 ≠ b) :
    ledgerBit (l.set b v) k = ledgerBit l k := by
  unfold ledgerBit
  rw [getD_set_ne _ _ _ _ (fun h => hk h.symm)]

theorem ledgerBit_set_oob (l : List Nat) (b v k : Nat) (hb : l.length ≤ b) :
    ledgerBit (l.set b v) k = ledgerBit l k := by
  rw [List.set_eq_of_length_le hb]

/-! ### Mask characterizations -/

theorem two_pow_sub_sub (A B n : Nat) (hBn : B + n = A) :
    (2 ^ A - 1) - (2 ^ B - 1) = (2 ^ n - 1) * 2 ^ B := by
  have h : 2 ^ B * 2 ^ n = 2 ^ A := by rw [← Nat.pow_add, hBn]
  have h1 : 1 ≤ 2 ^ B := Nat.one_le_two_pow
  have h2 : 1 ≤ 2 ^ n := Nat.one_le_two_pow
  rw [Nat.sub_one_mul, Nat.mul_comm (2 ^ n) (2 ^ B), h]
  omega

theorem mul_two_pow_testBit (n B t : Nat) :
    ((2 ^ n - 1) * 2 ^ B).testBit t = (decide (B ≤ t) && decide (t - B < n)) := by
  rw [← Nat.shiftLeft_eq, Nat.testBit_shiftLeft, Nat.testBit_two_pow_sub_one]

theorem maskFirst_lt (off n : Nat) : maskFirst off n < 256 := by
  unfold maskFirst
  split
  · have : 2 ^ (8 - off) ≤ 2 ^ 8 := Nat.pow_le_pow_right (by norm_num) (by omega)
    omega
  · have : 2 ^ (8 - off) ≤ 2 ^ 8 := Nat.pow_le_pow_right (by norm_num) (by omega)
    omega

theorem maskFull_lt (c : Nat) : maskFull c < 256 := by
  unfold maskFull
  split
  · omega
  · omega

theorem maskFirst_testBit (off n t : Nat) (hoff : off < 8) (ht : t < 8) :
    (maskFirst off n).testBit t =
      decide (8 - off - min n (8 - off) ≤ t ∧ t < 8 - off) := by
  unfold maskFirst
  split
  next h =>
    rw [two_pow_sub_sub (8 - off) (8 - off - n) n (by omega)]
    rw [mul_two_pow_testBit]
    rw [Bool.eq_iff_iff]
    simp only [Bool.and_eq_true, decide_eq_true_eq]
    omega
  next h =>
    rw [Nat.testBit_two_pow_sub_one, Bool.eq_iff_iff]
    simp only [decide_eq_true_eq]
    omega

theorem maskFull_testBit (c t : Nat) (hc1 : 1 ≤ c) (hc8 : c ≤ 8) (ht : t < 8) :
    (maskFull c).testBit t = decide (8 - c ≤ t) := by
  unfold maskFull
  split
  next h =>
    rw [show 255 - (2 ^ (8 - c) - 1) = (2 ^ 8 - 1) - (2 ^ (8 - c) - 1) by norm_num]
    rw [two_pow_sub_sub 8 (8 - c) c (by omega), mul_two_pow_testBit]
    rw [Bool.eq_iff_iff]
    simp only [Bool.and_eq_true, decide_eq_true_eq]
    omega
  next h =>
    have hc : c = 8 := by omega
    subst hc
    rw [show (255 : Nat) = 2 ^ 8 - 1 by norm_num, Nat.testBit_two_pow_sub_one]
    rw [Bool.eq_iff_iff]
    simp only [decide_eq_true_eq]
    omega

end MemPool

namespace MemPool

/-! ### Byte updates seen through `ledgerBit` -/

theorem getD_lt_256 {l : List Nat} (hl : WFledger l) (i : Nat) :
    l.getD i 0 < 256 := by
  by_cases hi : i < l.length
  · rw [List.getD_eq_getElem l 0 hi]
    exact hl _ (List.getElem_mem hi)
  · rw [List.getD_eq_default l 0 (by omega)]
    norm_num

theorem orAt_bit (l : List Nat) (b m k : Nat) (hb : b < l.length) :
    ledgerBit (orAt l b m) k =
      ((decide (k / 8 = b) && m.testBit (7 - k % 8)) || ledgerBit l k) := by
  by_cases h : k / 8 = b
  · rw [orAt, ledgerBit_set_eq l b _ k hb h, Nat.testBit_lor]
    unfold ledgerBit
    rw [h]
    simp [Bool.or_comm]
  · rw [orAt, ledgerBit_set_ne l b _ k h]
    simp [h]

theorem andAt_bit (l : List Nat) (b m k : Nat) (hb : b < l.length) :
    ledgerBit (andAt l b m) k =
      ((!decide (k / 8 = b) || m.testBit (7 - k % 8)) && ledgerBit l k) := by
  by_cases h : k / 8 = b
  · rw [andAt, ledgerBit_set_eq l b _ k hb h, Nat.testBit_land]
    unfold ledgerBit
    rw [h]
    simp [Bool.and_comm]
  · rw [andAt, ledgerBit_set_ne l b _ k h]
    simp [h]

theorem orAt_length (l : List Nat) (b m : Nat) : (orAt l b m).length = l.length :=
  List.length_set l b _

theorem andAt_length (l : List Nat) (b m : Nat) : (andAt l b m).length = l.length :=
  List.length_set l b _

/-! ### Bit-range characterization of the set loops -/

theorem setUsedLoop_bit (r : Nat) :
    ∀ b l k, 8 * b + r ≤ 8 * l.length →
      ledgerBit (setUsedLoop l b r) k =
        (decide (8 * b ≤ k ∧ k < 8 * b + r) || ledgerBit l k) := by
  induction r using Nat.strong_induction_on with
  | _ r ih =>
    intro b l k hle
    rw [setUsedLoop]
    split
    next hr =>
      have : ¬(8 * b ≤ k ∧ k < 8 * b + r) := by omega
      simp [this]
    next hr =>
      have hblen : b < l.length := by omega
      rw [ih (r - min r 8) (by omega) (b + 1) _ k
        (by rw [orAt_length]; omega)]
      rw [orAt_bit l b _ k hblen]
      rw [maskFull_testBit (min r 8) (7 - k % 8) (by omega) (by omega) (by omega)]
      cases hlk : ledgerBit l k <;>
      · rw [Bool.eq_iff_iff]
        simp only [Bool.or_eq_true, Bool.and_eq_true, decide_eq_true_eq,
          Bool.or_false, Bool.or_true] <;> omega

theorem setFreeLoop_bit (r : Nat) :
    ∀ b l k, 8 * b + r ≤ 8 * l.length →
      ledgerBit (setFreeLoop l b r) k =
        ((!decide (8 * b ≤ k ∧ k < 8 * b + r)) && ledgerBit l k) := by
  induction r using Nat.strong_induction_on with
  | _ r ih =>
    intro b l k hle
    rw [setFreeLoop]
    split
    next hr =>
      have : ¬(8 * b ≤ k ∧ k < 8 * b + r) := by omega
      simp [this]
    next hr =>
      have hblen : b < l.length := by omega
      rw [ih (r - min r 8) (by omega) (b + 1) _ k
        (by rw [andAt_length]; omega)]
      rw [andAt_bit l b _ k hblen]
      rw [compl_testBit (maskFull_lt (min r 8)) (show 7 - k % 8 < 8 by omega)]
      rw [maskFull_testBit (min r 8) (7 - k % 8) (by omega) (by omega) (by omega)]
      cases hlk : ledgerBit l k <;>
      · rw [Bool.eq_iff_iff]
        simp only [Bool.or_eq_true, Bool.and_eq_true, Bool.not_eq_true',
          decide_eq_true_eq, Bool.and_false, Bool.and_true, Bool.not_eq_true,
          decide_eq_false_iff_not] <;> omega

/-! ### Bit-range characterization of `set_used` and `set_free` -/

theorem set_used_bit (l : List Nat) (i n k : Nat) (hn : 1 ≤ n)
    (hle : i + n ≤ 8 * l.length) :
    ledgerBit (set_used l i n) k =
      (decide (i ≤ k ∧ k < i + n) || ledgerBit l k) := by
  have hbi : i / 8 < l.length := by omega
  rw [set_used, setUsedLoop_bit _ _ _ k (by rw [orAt_length]; omega)]
  rw [orAt_bit l _ _ k hbi]
  rw [maskFirst_testBit (i % 8) n (7 - k % 8) (by omega) (by omega)]
  cases hlk : ledgerBit l k <;>
  · rw [Bool.eq_iff_iff]
    simp only [Bool.or_eq_true, Bool.and_eq_true, decide_eq_true_eq,
      Bool.or_false, Bool.or_true] <;> omega

theorem set_free_bit (l : List Nat) (i n k : Nat) (hn : 1 ≤ n)
    (hle : i + n ≤ 8 * l.length) :
    ledgerBit (set_free l i n) k =
      ((!decide (i ≤ k ∧ k < i + n)) && ledgerBit l k) := by
  have hbi : i / 8 < l.length := by omega
  rw [set_free, setFreeLoop_bit _ _ _ k (by rw [andAt_length]; omega)]
  rw [andAt_bit l _ _ k hbi]
  rw [compl_testBit (maskFirst_lt (i % 8) n) (show 7 - k % 8 < 8 by omega)]
  rw [maskFirst_testBit (i % 8) n (7 - k % 8) (by omega) (by omega)]
  cases hlk : ledgerBit l k <;>
  · rw [Bool.eq_iff_iff]
    simp only [Bool.or_eq_true, Bool.and_eq_true, Bool.not_eq_true',
      decide_eq_true_eq, Bool.and_false, Bool.and_true, Bool.not_eq_true,
      decide_eq_false_iff_not] <;> omega

end MemPool

namespace MemPool

/-! ### Lengths and well-formedness are preserved -/

theorem setUsedLoop_length (r : Nat) :
    ∀ b l, (setUsedLoop l b r).length = l.length := by
  induction r using Nat.strong_induction_on with
  | _ r ih =>
    intro b l
    rw [setUsedLoop]
    split
    · rfl
    · rw [ih (r - min r 8) (by omega), orAt_length]

theorem setFreeLoop_length (r : Nat) :
    ∀ b l, (setFreeLoop l b r).length = l.length := by
  induction r using Nat.strong_induction_on with
  | _ r ih =>
    intro b l
    rw [setFreeLoop]
    split
    · rfl
    · rw [ih (r - min r 8) (by omega), andAt_length]

theorem set_used_length (l : List Nat) (i n : Nat) :
    (set_used l i n).length = l.length := by
  rw [set_used, setUsedLoop_length, orAt_length]

theorem set_free_length (l : List Nat) (i n : Nat) :
    (set_free l i n).length = l.length := by
  rw [set_free, setFreeLoop_length, andAt_length]

theorem WFledger_set {l : List Nat} (hl : WFledger l) {v : Nat} (hv : v < 256)
    (b : Nat) : WFledger (l.set b v) := by
  intro x hx
  rcases List.mem_or_eq_of_mem_set hx with h | h
  · exact hl x h
  · omega

theorem WFledger_orAt {l : List Nat} (hl : WFledger l) {m : Nat} (hm : m < 256)
    (b : Nat) : WFledger (orAt l b m) := by
  apply WFledger_set hl _ b
  have h1 : l.getD b 0 < 256 := getD_lt_256 hl b
  have h2 : l.getD b 0 < 2 ^ 8 := by omega
  have h3 : m < 2 ^ 8 := by omega
  have h4 := Nat.or_lt_two_pow h2 h3
  omega

theorem WFledger_andAt {l : List Nat} (hl : WFledger l) (b m : Nat) :
    WFledger (andAt l b m) := by
  apply WFledger_set hl _ b
  have h1 : l.getD b 0 < 256 := getD_lt_256 hl b
  have : l.getD b 0 &&& m ≤ l.getD b 0 := Nat.and_le_left
  omega

theorem WFledger_setUsedLoop (r : Nat) :
    ∀ b l, WFledger l → WFledger (setUsedLoop l b r) := by
  induction r using Nat.strong_induction_on with
  | _ r ih =>
    intro b l hl
    rw [setUsedLoop]
    split
    · exact hl
    · exact ih (r - min r 8) (by omega) _ _ (WFledger_orAt hl (maskFull_lt _) b)

theorem WFledger_setFreeLoop (r : Nat) :
    ∀ b l, WFledger l → WFledger (setFreeLoop l b r) := by
  induction r using Nat.strong_induction_on with
  | _ r ih =>
    intro b l hl
    rw [setFreeLoop]
    split
    · exact hl
    · exact ih (r - min r 8) (by omega) _ _ (WFledger_andAt hl b _)

theorem WFledger_set_used {l : List Nat} (hl : WFledger l) (i n : Nat) :
    WFledger (set_used l i n) :=
  WFledger_setUsedLoop _ _ _ (WFledger_orAt hl (maskFirst_lt _ _) _)

theorem WFledger_set_free {l : List Nat} (hl : WFledger l) (i n : Nat) :
    WFledger (set_free l i n) :=
  WFledger_setFreeLoop _ _ _ (WFledger_andAt hl _ _)

/-! ### Extensionality: a well-formed ledger is determined by its bits -/

theorem byte_ext_aux {x y : Nat} (hx : x < 256) (hy : y < 256)
    (h : ∀ t < 8, x.testBit t = y.testBit t) : x = y := by
  apply Nat.eq_of_testBit_eq
  intro t
  by_cases ht : t < 8
  · exact h t ht
  · rw [testBit_of_lt_256 hx (by omega), testBit_of_lt_256 hy (by omega)]

theorem ledger_ext {l1 l2 : List Nat} (h1 : WFledger l1) (h2 : WFledger l2)
    (hlen : l1.length = l2.length)
    (hbit : ∀ k, ledgerBit l1 k = ledgerBit l2 k) : l1 = l2 := by
  apply List.ext_getElem hlen
  intro b hb1 hb2
  apply byte_ext_aux (h1 _ (List.getElem_mem hb1)) (h2 _ (List.getElem_mem hb2))
  intro t ht
  have hk := hbit (8 * b + (7 - t))
  unfold ledgerBit at hk
  rw [show (8 * b + (7 - t)) / 8 = b by omega,
      show 7 - (8 * b + (7 - t)) % 8 = t by omega] at hk
  rw [List.getD_eq_getElem l1 0 hb1, List.getD_eq_getElem l2 0 hb2] at hk
  exact hk

/-! ### `n = 0` never reaches any caller, and is a no-op on the bytes -/

theorem and_255_aux : ∀ x < 256, x &&& 255 = x := by
  decide

theorem set_used_zero {l : List Nat} (i : Nat) : set_used l i 0 = l := by
  have hoff : i % 8 < 8 := by omega
  rw [set_used]
  rw [show (0 : Nat) - min 0 (8 - i % 8) = 0 by omega, setUsedLoop]
  simp only [if_pos rfl]
  have hm : maskFirst (i % 8) 0 = 0 := by
    unfold maskFirst
    rw [if_pos (by omega)]
    simp only [Nat.sub_zero]
    omega
  rw [hm, orAt]
  rw [Nat.or_zero]
  by_cases hb : i / 8 < l.length
  · rw [List.getD_eq_getElem l 0 hb]
    exact set_self l _ hb
  · exact List.set_eq_of_length_le (by omega)

theorem set_free_zero {l : List Nat} (hl : WFledger l) (i : Nat) :
    set_free l i 0 = l := by
  have hoff : i % 8 < 8 := by omega
  rw [set_free]
  rw [show (0 : Nat) - min 0 (8 - i % 8) = 0 by omega, setFreeLoop]
  simp only [if_pos rfl]
  have hm : maskFirst (i % 8) 0 = 0 := by
    unfold maskFirst
    rw [if_pos (by omega)]
    simp only [Nat.sub_zero]
    omega
  rw [hm, Nat.sub_zero, andAt]
  rw [and_255_aux _ (getD_lt_256 hl _)]
  by_cases hb : i / 8 < l.length
  · rw [List.getD_eq_getElem l 0 hb]
    exact set_self l _ hb
  · exact List.set_eq_of_length_le (by omega)

end MemPool

namespace MemPool

/-! ### Scan-loop lemmas -/

theorem findLoop_some_bound (n : Nat) (l : List Bool) :
    ∀ k c s s', s + c ≤ k → findLoop n l k c s = some s' →
      s' + n ≤ k + l.length := by
  induction l with
  | nil =>
    intro k c s s' h hf
    simp [findLoop] at hf
  | cons b rest ih =>
    intro k c s s' h hf
    simp only [findLoop] at hf
    split at hf
    · have hres : resumeIndex k + 0 ≤ k + 1 := by unfold resumeIndex; omega
      have := ih (k + 1) 0 (resumeIndex k) s' hres hf
      simp only [List.length_cons]
      omega
    · split at hf
      next hc =>
        simp only [Option.some.injEq] at hf
        subst hf
        simp only [List.length_cons]
        omega
      next hc =>
        have := ih (k + 1) (c + 1) s s' (by omega) hf
        simp only [List.length_cons]
        omega

theorem findLoop_some_count (n : Nat) (l : List Bool) :
    ∀ k c s s', findLoop n l k c s = some s' → n ≤ c + l.length := by
  induction l with
  | nil =>
    intro k c s s' hf
    simp [findLoop] at hf
  | cons b rest ih =>
    intro k c s s' hf
    simp only [findLoop] at hf
    split at hf
    · have := ih (k + 1) 0 (resumeIndex k) s' hf
      simp only [List.length_cons]
      omega
    · split at hf
      next hc =>
        simp only [List.length_cons]
        omega
      next hc =>
        have := ih (k + 1) (c + 1) s s' hf
        simp only [List.length_cons]
        omega

theorem findLoop_replicate_true (n m : Nat) :
    ∀ rest k c s, 1 ≤ m →
      findLoop n (List.replicate m true ++ rest) k c s =
        findLoop n rest (k + m) 0 (resumeIndex (k + m - 1)) := by
  induction m with
  | zero =>
    intro rest k c s hm
    omega
  | succ m ih =>
    intro rest k c s _
    rcases Nat.eq_zero_or_pos m with h0 | hpos
    · subst h0
      simp [findLoop]
    · rw [List.replicate_succ, List.cons_append]
      simp only [findLoop, if_pos rfl]
      rw [ih rest (k + 1) 0 (resumeIndex k) hpos]
      rw [show k + 1 + m = k + (m + 1) by omega]
      simp

theorem findLoop_replicate_false (n p : Nat) :
    ∀ k c s, findLoop n (List.replicate p false) k c s =
      if c < n ∧ n ≤ c + p then some s else none := by
  induction p with
  | zero =>
    intro k c s
    rw [List.replicate_zero, if_neg (by omega)]
    rfl
  | succ p ih =>
    intro k c s
    rw [List.replicate_succ]
    simp only [findLoop, Bool.false_eq_true, if_false]
    split
    next hc =>
      rw [if_pos (by omega)]
    next hc =>
      rw [ih (k + 1) (c + 1) s]
      by_cases hcase : c < n ∧ n ≤ c + (p + 1)
      · rw [if_pos (by omega), if_pos hcase]
      · rw [if_neg (by omega), if_neg hcase]

/-! ### The flattened bit list agrees with `ledgerBit` -/

theorem ledgerBits_length (l : List Nat) : (ledgerBits l).length = 8 * l.length := by
  induction l with
  | nil => rfl
  | cons b rest ih =>
    simp only [ledgerBits, byteBits, List.length_append, List.length_cons,
      List.length_nil, ih]
    omega

theorem ledgerBits_getElem (l : List Nat) :
    ∀ k (h : k < (ledgerBits l).length), (ledgerBits l)[k] = ledgerBit l k := by
  induction l with
  | nil =>
    intro k h
    simp [ledgerBits] at h
  | cons byteVal rest ih =>
    intro k h
    have h8 : (byteBits byteVal).length = 8 := rfl
    show (byteBits byteVal ++ ledgerBits rest)[k] = _
    by_cases hk : k < 8
    · rw [List.getElem_append_left (by rw [h8]; omega)]
      interval_cases k <;> rfl
    · rw [List.getElem_append_right (by rw [h8]; omega)]
      simp only [h8]
      rw [ih (k - 8) (by simp only [ledgerBits, List.length_append, h8] at h; omega)]
      unfold ledgerBit
      rw [show k / 8 = (k - 8) / 8 + 1 by omega, List.getD_cons_succ,
        show 7 - k % 8 = 7 - (k - 8) % 8 by omega]

theorem ledgerBits_split (l : List Nat) (bc : Nat) (hbc : bc ≤ 8 * l.length)
    (h1 : ∀ k, k < bc → ledgerBit l k = true)
    (h2 : ∀ k, bc ≤ k → k < 8 * l.length → ledgerBit l k = false) :
    ledgerBits l =
      List.replicate bc true ++ List.replicate (8 * l.length - bc) false := by
  apply List.ext_getElem
  · simp only [ledgerBits_length, List.length_append, List.length_replicate]
    omega
  · intro k hk1 hk2
    rw [ledgerBits_getElem l k hk1]
    by_cases hkbc : k < bc
    · rw [List.getElem_append_left (by simp only [List.length_replicate]; omega)]
      rw [List.getElem_replicate]
      exact h1 k hkbc
    · rw [List.getElem_append_right (by simp only [List.length_replicate]; omega)]
      rw [List.getElem_replicate]
      exact h2 k (by omega) (by rw [ledgerBits_length] at hk1; omega)

end MemPool

namespace MemPool

/-! ### Dispatcher helper lemmas -/

theorem defaultBucket_allocate_none (bytes : Nat) :
    defaultBucket.allocate bytes = (none, defaultBucket) := by
  rfl

theorem tryAllocate_none (pool : List Bucket) (bytes : Nat)
    (h : ∀ i, ((pool.getD i defaultBucket).allocate bytes).1 = none) :
    ∀ opts, tryAllocate pool bytes opts = (none, pool) := by
  intro opts
  induction opts with
  | nil => rfl
  | cons o rest ih =>
    have ho := h o.index
    rw [tryAllocate]
    cases hall : (pool.getD o.index defaultBucket).allocate bytes with
    | mk fst snd =>
      cases fst with
      | some a => rw [hall] at ho; simp at ho
      | none => exact ih

theorem deallocLoop_noop (ptr bytes : Nat) (pool : List Bucket)
    (h : ∀ bk ∈ pool, bk.belongs ptr = false) :
    deallocLoop ptr bytes pool = pool := by
  induction pool with
  | nil => rfl
  | cons bk rest ih =>
    rw [deallocLoop]
    rw [h bk (by simp)]
    simp only [Bool.false_eq_true, if_false]
    rw [ih (fun b hb => h b (by simp [hb]))]

theorem infoLe_total (a b : Info) : (infoLe a b || infoLe b a) = true := by
  simp only [infoLe, Info.lt]
  split_ifs with h1 h2 <;>
    simp only [Bool.or_eq_true, Bool.not_eq_true', decide_eq_false_iff_not] <;>
    omega

theorem infoLe_trans (a b c : Info) :
    infoLe a b = true → infoLe b c = true → infoLe a c = true := by
  simp only [infoLe, Info.lt]
  split_ifs <;>
    simp only [Bool.not_eq_true', decide_eq_false_iff_not] <;>
    omega

theorem score_index (pool : List Bucket) (bytes i : Nat) :
    (score pool bytes i).index = i := by
  simp only [score]
  split <;> rfl

/-- Modelled from the spec: the claimed per-bucket score, with the blocks
needed in the undersized case written as the exact ceiling
`ceil(byte_length / block_size)`.  First component: blocks needed; second:
waste in bytes. -/
def specScore (blockSize bytes : Nat) : Nat × Nat :=
  if blockSize ≥ bytes then
    (1, blockSize - bytes)
  else
    ((bytes + blockSize - 1) / blockSize,
     ((bytes + blockSize - 1) / blockSize) * blockSize - bytes)

theorem blocksNeeded_eq_ceil (blockSize bytes : Nat) (hbs : 1 ≤ blockSize)
    (hb1 : 1 ≤ bytes) (hb2 : bytes < U64) :
    blocksNeeded blockSize bytes = (bytes + blockSize - 1) / blockSize := by
  unfold blocksNeeded
  rw [show bytes + (U64 - 1) = (bytes - 1) + U64 by unfold U64 at *; omega]
  rw [Nat.add_mod_right, Nat.mod_eq_of_lt (by unfold U64 at *; omega)]
  rw [show bytes + blockSize - 1 = (bytes - 1) + blockSize by omega]
  rw [Nat.add_div_right _ (by omega)]
  omega

theorem score_eq_spec (pool : List Bucket) (bytes i : Nat)
    (hbs : 1 ≤ (pool.getD i defaultBucket).BlockSize) (hb2 : bytes < U64) :
    score pool bytes i =
      ⟨i, (specScore (pool.getD i defaultBucket).BlockSize bytes).1,
          (specScore (pool.getD i defaultBucket).BlockSize bytes).2⟩ := by
  simp only [score, specScore]
  split
  next h => rfl
  next h =>
    have hb1 : 1 ≤ bytes := by omega
    rw [blocksNeeded_eq_ceil _ _ hbs hb1 hb2]

end MemPool

namespace MemPool

/-! ### Bucket-level helper lemmas -/

theorem one_le_blocksNeeded (blockSize bytes : Nat) :
    1 ≤ blocksNeeded blockSize bytes := by
  unfold blocksNeeded
  exact Nat.le_add_right 1 _

theorem allocate_none_of_bits_lt (bk : Bucket) (bytes : Nat)
    (h : 8 * bk.ledger.length < blocksNeeded bk.BlockSize bytes) :
    bk.allocate bytes = (none, bk) := by
  have hfind : bk.find_contiguous_blocks (blocksNeeded bk.BlockSize bytes) =
      bk.BlockCount := by
    unfold Bucket.find_contiguous_blocks
    cases hf : findLoop (blocksNeeded bk.BlockSize bytes) (ledgerBits bk.ledger)
        0 0 0 with
    | none => rfl
    | some s' =>
      exfalso
      have := findLoop_some_count _ _ 0 0 0 s' hf
      rw [ledgerBits_length] at this
      omega
  simp only [Bucket.allocate]
  rw [hfind]
  simp

theorem set_used_idem (l : List Nat) (i n : Nat) (hwf : WFledger l)
    (hle : i + n ≤ 8 * l.length) :
    set_used (set_used l i n) i n = set_used l i n := by
  rcases Nat.eq_zero_or_pos n with h0 | hn
  · subst h0
    rw [set_used_zero, set_used_zero]
  · apply ledger_ext (WFledger_set_used (WFledger_set_used hwf _ _) _ _)
      (WFledger_set_used hwf _ _)
      (by rw [set_used_length, set_used_length])
    intro k
    rw [set_used_bit _ _ _ _ hn (by rw [set_used_length]; omega),
        set_used_bit _ _ _ _ hn hle]
    cases hd : decide (i ≤ k ∧ k < i + n) <;> simp

theorem set_free_idem (l : List Nat) (i n : Nat) (hwf : WFledger l)
    (hle : i + n ≤ 8 * l.length) :
    set_free (set_free l i n) i n = set_free l i n := by
  rcases Nat.eq_zero_or_pos n with h0 | hn
  · subst h0
    rw [set_free_zero hwf, set_free_zero hwf]
  · apply ledger_ext (WFledger_set_free (WFledger_set_free hwf _ _) _ _)
      (WFledger_set_free hwf _ _)
      (by rw [set_free_length, set_free_length])
    intro k
    rw [set_free_bit _ _ _ _ hn (by rw [set_free_length]; omega),
        set_free_bit _ _ _ _ hn hle]
    cases hd : decide (i ≤ k ∧ k < i + n) <;> simp

theorem set_free_set_used_roundtrip (l : List Nat) (i n : Nat)
    (hwf : WFledger l) (hn : 1 ≤ n) (hle : i + n ≤ 8 * l.length)
    (hfree : ∀ k, i ≤ k → k < i + n → ledgerBit l k = false) :
    set_free (set_used l i n) i n = l := by
  apply ledger_ext (WFledger_set_free (WFledger_set_used hwf _ _) _ _) hwf
    (by rw [set_free_length, set_used_length])
  intro k
  rw [set_free_bit _ _ _ _ hn (by rw [set_used_length]; omega),
      set_used_bit _ _ _ _ hn hle]
  by_cases hk : i ≤ k ∧ k < i + n
  · rw [hfree k hk.1 hk.2]
    simp [hk]
  · simp [hk]

theorem allocate_none_of_allUsed (bk : Bucket) (bytes : Nat)
    (hbc : 1 ≤ bk.BlockCount)
    (hlen : bk.ledger.length = ledgerSize bk.BlockCount)
    (hused : ∀ k, k < bk.BlockCount → ledgerBit bk.ledger k = true)
    (hpad : ∀ k, bk.BlockCount ≤ k → k < 8 * bk.ledger.length →
      ledgerBit bk.ledger k = false) :
    bk.allocate bytes = (none, bk) := by
  have hbits : bk.BlockCount ≤ 8 * bk.ledger.length := by
    rw [hlen]
    unfold ledgerSize
    omega
  have hsplit := ledgerBits_split bk.ledger bk.BlockCount hbits hused hpad
  have hfind : bk.find_contiguous_blocks (blocksNeeded bk.BlockSize bytes) =
      bk.BlockCount := by
    unfold Bucket.find_contiguous_blocks
    rw [hsplit]
    rw [findLoop_replicate_true _ _ _ 0 0 0 hbc]
    rw [findLoop_replicate_false]
    by_cases hcond : 0 < blocksNeeded bk.BlockSize bytes ∧
        blocksNeeded bk.BlockSize bytes ≤
          0 + (8 * bk.ledger.length - bk.BlockCount)
    · rw [if_pos hcond]
      show resumeIndex (0 + bk.BlockCount - 1) = bk.BlockCount
      unfold resumeIndex
      unfold ledgerSize at hlen
      omega
    · rw [if_neg hcond]
  simp only [Bucket.allocate]
  rw [hfind]
  simp

end MemPool

namespace MemPool

/-! ### The claims -/

unseal setUsedLoop in
/-- Claim C1: first-fit correctness of `bucket::allocate` fails on the code.
The concrete spec example (blocks 0,1,2 used, 1-block request returns
index 3) does hold, but when the last used block before the free run is the
last bit of a ledger byte the scan resumes one byte too early: with blocks
0..7 used and blocks 8..15 free, a 1-block request must return block 8, yet
the code returns the address of block 0 (already in use) and re-marks it. -/
theorem claim_C1_first_fit_bug :
    Bucket.allocate ⟨1, 16, 0, [224, 0]⟩ 1 = (some 3, ⟨1, 16, 0, [240, 0]⟩) ∧
    (∀ k, k < 8 → ledgerBit [255, 0] k = true) ∧
    (∀ k, 8 ≤ k → k < 16 → ledgerBit [255, 0] k = false) ∧
    Bucket.allocate ⟨1, 16, 0, [255, 0]⟩ 1 = (some 0, ⟨1, 16, 0, [255, 0]⟩) := by
  decide

unseal setUsedLoop in
/-- Claim C2: the padding-bit invariant fails on the code.  For a fresh
bucket with `block_count = 9` (two ledger bytes, padding bits 9..15) the
run finder counts the zero padding bits as allocatable, so an allocation of
10 blocks succeeds at index 0, covers block indices 9 (and beyond) past
`block_count`, and sets padding bits: the ledger becomes `[255, 192]` with
padding bit 9 set. -/
theorem claim_C2_padding_bug :
    Bucket.make 1 9 0 = ⟨1, 9, 0, [0, 0]⟩ ∧
    (∀ k, k < 16 → ledgerBit [0, 0] k = false) ∧
    Bucket.allocate ⟨1, 9, 0, [0, 0]⟩ 10 = (some 0, ⟨1, 9, 0, [255, 192]⟩) ∧
    ledgerBit [255, 192] 9 = true := by
  decide

/-- Claim C3: dispatcher bucket selection.  The dispatcher's try order is a
permutation of the per-bucket scores computed exactly as the claim states
(`blocks_needed = 1, waste = block_size - b` when `block_size ≥ b`, else
the ceiling formula), the order is sorted by ascending waste with ties
broken by ascending blocks needed, and the result is the first bucket
allocation that succeeds along that order (`tryAllocate`). -/
theorem claim_C3_dispatcher_selection (pool : List Bucket) (bytes : Nat)
    (hbs : ∀ bk ∈ pool, 1 ≤ bk.BlockSize) (hb : bytes < U64) :
    ∃ opts : List Info,
      opts.Perm ((List.range pool.length).map (fun i =>
        ⟨i, (specScore (pool.getD i defaultBucket).BlockSize bytes).1,
            (specScore (pool.getD i defaultBucket).BlockSize bytes).2⟩)) ∧
      opts.Pairwise (fun a b =>
        a.waste < b.waste ∨ (a.waste = b.waste ∧ a.block_count ≤ b.block_count)) ∧
      MPA.allocate pool bytes = tryAllocate pool bytes opts := by
  refine ⟨(scoreList pool bytes).mergeSort infoLe, ?_, ?_, rfl⟩
  · refine (List.mergeSort_perm _ _).trans ?_
    unfold scoreList
    have hmap : ∀ i ∈ List.range pool.length, score pool bytes i =
        (⟨i, (specScore (pool.getD i defaultBucket).BlockSize bytes).1,
             (specScore (pool.getD i defaultBucket).BlockSize bytes).2⟩ : Info) := by
      intro i hi
      have hilt : i < pool.length := List.mem_range.mp hi
      have hmem : pool.getD i defaultBucket ∈ pool := by
        rw [List.getD_eq_getElem pool defaultBucket hilt]
        exact List.getElem_mem hilt
      exact score_eq_spec pool bytes i (hbs _ hmem) hb
    rw [List.map_congr_left hmap]
  · have hs : List.Pairwise (fun a b => infoLe a b = true)
        ((scoreList pool bytes).mergeSort infoLe) :=
      List.sorted_mergeSort infoLe_trans infoLe_total _
    refine hs.imp ?_
    intro a b hab
    simp only [infoLe, Info.lt] at hab
    split_ifs at hab <;>
      simp only [Bool.not_eq_true', decide_eq_false_iff_not] at hab <;>
      omega

/-- Claim C3 witness: the theorem applied to a concrete two-bucket pool
(block sizes 24 and 8) and a 10-byte request. -/
theorem claim_C3_dispatcher_selection_witness :
    (∀ bk ∈ ([⟨24, 4, 100, [0]⟩, ⟨8, 16, 0, [0, 0]⟩] : List Bucket),
      1 ≤ bk.BlockSize) ∧
    (10 : Nat) < U64 ∧
    (∃ opts : List Info,
      opts.Perm ((List.range
          ([⟨24, 4, 100, [0]⟩, ⟨8, 16, 0, [0, 0]⟩] : List Bucket).length).map (fun i =>
        ⟨i, (specScore (([⟨24, 4, 100, [0]⟩, ⟨8, 16, 0, [0, 0]⟩] : List Bucket).getD i
              defaultBucket).BlockSize 10).1,
            (specScore (([⟨24, 4, 100, [0]⟩, ⟨8, 16, 0, [0, 0]⟩] : List Bucket).getD i
              defaultBucket).BlockSize 10).2⟩)) ∧
      opts.Pairwise (fun a b =>
        a.waste < b.waste ∨ (a.waste = b.waste ∧ a.block_count ≤ b.block_count)) ∧
      MPA.allocate [⟨24, 4, 100, [0]⟩, ⟨8, 16, 0, [0, 0]⟩] 10 =
        tryAllocate [⟨24, 4, 100, [0]⟩, ⟨8, 16, 0, [0, 0]⟩] 10 opts) :=
  ⟨by decide, by decide,
   claim_C3_dispatcher_selection [⟨24, 4, 100, [0]⟩, ⟨8, 16, 0, [0, 0]⟩] 10
     (by decide) (by decide)⟩

/-- Claim C4: pool-wide exhaustion is terminal and has no side effect.
If every bucket's `allocate` returns null for the request, the dispatcher
reaches the `throw std::bad_alloc` path (modelled as result `none`) and the
pool, hence every bucket's ledger, is returned exactly as it was. -/
theorem claim_C4_pool_exhaustion (pool : List Bucket) (bytes : Nat)
    (h : ∀ i, i < pool.length →
      ((pool.getD i defaultBucket).allocate bytes).1 = none) :
    MPA.allocate pool bytes = (none, pool) := by
  have h' : ∀ i, ((pool.getD i defaultBucket).allocate bytes).1 = none := by
    intro i
    by_cases hi : i < pool.length
    · exact h i hi
    · rw [List.getD_eq_default _ _ (by omega), defaultBucket_allocate_none]
  exact tryAllocate_none pool bytes h' _

/-- Claim C4 witness: a pool of one fully occupied bucket. -/
theorem claim_C4_pool_exhaustion_witness :
    (∀ i, i < ([⟨1, 8, 0, [255]⟩] : List Bucket).length →
      ((([⟨1, 8, 0, [255]⟩] : List Bucket).getD i defaultBucket).allocate 3).1 =
        none) ∧
    MPA.allocate [⟨1, 8, 0, [255]⟩] 3 = (none, [⟨1, 8, 0, [255]⟩]) :=
  ⟨by decide, claim_C4_pool_exhaustion [⟨1, 8, 0, [255]⟩] 3 (by decide)⟩

end MemPool

namespace MemPool

unseal setUsedLoop setFreeLoop in
/-- Claim C5 counterexample: the round trip does not always restore the
pre-allocate ledger.  With blocks 0..7 used (ledger `[255, 0]`) the buggy
scan hands out block 0 again: `allocate(1)` returns address 0 with the
ledger unchanged, and the paired `deallocate` then clears bit 0, which was
set before the allocate - not its pre-allocate value. -/
theorem claim_C5_counterexample :
    Bucket.allocate ⟨1, 16, 0, [255, 0]⟩ 1 = (some 0, ⟨1, 16, 0, [255, 0]⟩) ∧
    ledgerBit [255, 0] 0 = true ∧
    Bucket.deallocate ⟨1, 16, 0, [255, 0]⟩ 0 1 = ⟨1, 16, 0, [127, 0]⟩ ∧
    ledgerBit [127, 0] 0 = false := by
  decide

/-- Claim C5 (amended): if `allocate(b)` succeeds returning the address of
block index `i` with run length `n`, and the blocks `[i, i+n)` were all
free beforehand (which the buggy run finder does not always guarantee),
then the immediately following `deallocate(address, b)` restores the ledger
bits `[i, i+n)` to their pre-allocate values (all free), and neither the
allocate's bit-setting nor the deallocate's bit-clearing touches any
ledger bit outside `[i, i+n)`; the bucket is restored exactly. -/
theorem claim_C5_roundtrip_amended (bk : Bucket) (bytes i : Nat)
    (hwf : WFledger bk.ledger) (hbs : 1 ≤ bk.BlockSize)
    (hfind : findLoop (blocksNeeded bk.BlockSize bytes) (ledgerBits bk.ledger)
      0 0 0 = some i)
    (hne : i ≠ bk.BlockCount)
    (hfree : ∀ k < i + blocksNeeded bk.BlockSize bytes, i ≤ k →
      ledgerBit bk.ledger k = false) :
    bk.allocate bytes =
      (some (bk.base + i * bk.BlockSize),
       { bk with ledger := set_used bk.ledger i (blocksNeeded bk.BlockSize bytes) }) ∧
    (∀ k, ¬(i ≤ k ∧ k < i + blocksNeeded bk.BlockSize bytes) →
      ledgerBit (set_used bk.ledger i (blocksNeeded bk.BlockSize bytes)) k =
        ledgerBit bk.ledger k) ∧
    (∀ k, ¬(i ≤ k ∧ k < i + blocksNeeded bk.BlockSize bytes) →
      ledgerBit (set_free (set_used bk.ledger i (blocksNeeded bk.BlockSize bytes))
        i (blocksNeeded bk.BlockSize bytes)) k = ledgerBit bk.ledger k) ∧
    Bucket.deallocate
      { bk with ledger := set_used bk.ledger i (blocksNeeded bk.BlockSize bytes) }
      (bk.base + i * bk.BlockSize) bytes = bk := by
  obtain ⟨bs, bc, ba, l⟩ := bk
  simp only at hwf hbs hfind hne hfree ⊢
  have hn : 1 ≤ blocksNeeded bs bytes := one_le_blocksNeeded _ _
  have hle : i + blocksNeeded bs bytes ≤ 8 * l.length := by
    have := findLoop_some_bound (blocksNeeded bs bytes)
      (ledgerBits l) 0 0 0 i (by omega) hfind
    rw [ledgerBits_length] at this
    omega
  have hfree' : ∀ k, i ≤ k → k < i + blocksNeeded bs bytes →
      ledgerBit l k = false := fun k h1 h2 => hfree k h2 h1
  have hfindeq : Bucket.find_contiguous_blocks ⟨bs, bc, ba, l⟩
      (blocksNeeded bs bytes) = i := by
    unfold Bucket.find_contiguous_blocks
    rw [hfind]
  have hround := set_free_set_used_roundtrip l i
    (blocksNeeded bs bytes) hwf hn hle hfree'
  refine ⟨?_, ?_, ?_, ?_⟩
  · simp only [Bucket.allocate, hfindeq]
    rw [if_neg hne]
  · intro k hk
    rw [set_used_bit _ _ _ _ hn hle]
    simp [hk]
  · intro k hk
    rw [hround]
  · simp only [Bucket.deallocate]
    rw [show ba + i * bs - ba = i * bs by omega]
    rw [Nat.mul_div_cancel _ (by omega : 0 < bs)]
    rw [hround]

/-- Claim C5 witness: a concrete successful allocate (ledger `[129, 0]`,
blocks 0 and 7 used, 3-byte request on 1-byte blocks finds blocks 1..3)
followed by the paired deallocate. -/
theorem claim_C5_roundtrip_amended_witness :
    WFledger ([129, 0] : List Nat) ∧ (1 : Nat) ≤ 1 ∧
    findLoop (blocksNeeded 1 3) (ledgerBits [129, 0]) 0 0 0 = some 1 ∧
    (1 : Nat) ≠ 16 ∧
    (∀ k < 1 + blocksNeeded 1 3, (1 : Nat) ≤ k →
      ledgerBit [129, 0] k = false) ∧
    (Bucket.allocate ⟨1, 16, 0, [129, 0]⟩ 3 =
      (some (0 + 1 * 1), ⟨1, 16, 0, set_used [129, 0] 1 (blocksNeeded 1 3)⟩) ∧
    (∀ k, ¬(1 ≤ k ∧ k < 1 + blocksNeeded 1 3) →
      ledgerBit (set_used [129, 0] 1 (blocksNeeded 1 3)) k =
        ledgerBit [129, 0] k) ∧
    (∀ k, ¬(1 ≤ k ∧ k < 1 + blocksNeeded 1 3) →
      ledgerBit (set_free (set_used [129, 0] 1 (blocksNeeded 1 3))
        1 (blocksNeeded 1 3)) k = ledgerBit [129, 0] k) ∧
    Bucket.deallocate ⟨1, 16, 0, set_used [129, 0] 1 (blocksNeeded 1 3)⟩
      (0 + 1 * 1) 3 = ⟨1, 16, 0, [129, 0]⟩) :=
  ⟨by unfold WFledger; decide, by decide, by decide, by decide, by decide,
   claim_C5_roundtrip_amended ⟨1, 16, 0, [129, 0]⟩ 3 1
     (by unfold WFledger; decide) (by decide) (by decide) (by decide) (by decide)⟩

end MemPool

namespace MemPool

unseal setUsedLoop in
/-- Claim C6: multi-block run over a fresh bucket with `block_size = 8` and
`block_count = 16` (two ledger bytes).  `allocate(40)` computes `n = 5`,
marks exactly blocks 0..4 used (ledger `[248, 0]`), and the following
`allocate(8)` returns the address `arena_base + 5 * 8` for block 5. -/
theorem claim_C6_byte_boundary_span (base : Nat) :
    blocksNeeded 8 40 = 5 ∧
    Bucket.make 8 16 base = ⟨8, 16, base, [0, 0]⟩ ∧
    Bucket.allocate ⟨8, 16, base, [0, 0]⟩ 40 =
      (some (base + 0 * 8), ⟨8, 16, base, [248, 0]⟩) ∧
    (∀ k, k < 16 → (ledgerBit [248, 0] k = true ↔ k < 5)) ∧
    (Bucket.allocate ⟨8, 16, base, [248, 0]⟩ 8).1 = some (base + 5 * 8) := by
  have h5 : blocksNeeded 8 40 = 5 := by decide
  have h1 : blocksNeeded 8 8 = 1 := by decide
  have hf5 : Bucket.find_contiguous_blocks ⟨8, 16, base, [0, 0]⟩ 5 = 0 := by
    unfold Bucket.find_contiguous_blocks
    rw [show findLoop 5 (ledgerBits [0, 0]) 0 0 0 = some 0 from by decide]
  have hf1 : Bucket.find_contiguous_blocks ⟨8, 16, base, [248, 0]⟩ 1 = 5 := by
    unfold Bucket.find_contiguous_blocks
    rw [show findLoop 1 (ledgerBits [248, 0]) 0 0 0 = some 5 from by decide]
  have hsu : set_used [0, 0] 0 5 = [248, 0] := by decide
  refine ⟨h5, by rfl, ?_, by decide, ?_⟩
  · simp only [Bucket.allocate, h5, hf5]
    rw [if_neg (by omega)]
    rw [hsu]
  · simp only [Bucket.allocate, h1, hf1]
    rw [if_neg (by omega)]

unseal setUsedLoop in
/-- Claim C7 counterexample: the claim as stated is false of the code.  The
state with ledger `[255, 192]` (block size 1, block count 9: all nine
blocks marked used, plus padding bit 9 set) is reachable - one `allocate(10)`
on a fresh 9-block bucket produces exactly it - and on that state a
1-block request does not return null: the scan resumes after the set bits
at indices 8..9, finds the free padding bit 10, and since `10 != block_count`
the allocation succeeds at index 10, marking padding bit 10 as well. -/
theorem claim_C7_counterexample :
    Bucket.allocate ⟨1, 9, 0, [0, 0]⟩ 10 = (some 0, ⟨1, 9, 0, [255, 192]⟩) ∧
    (∀ k, k < 9 → ledgerBit [255, 192] k = true) ∧
    (1 : Nat) ≤ 1 ∧
    Bucket.allocate ⟨1, 9, 0, [255, 192]⟩ 1 = (some 10, ⟨1, 9, 0, [255, 224]⟩) := by
  decide

/-- Claim C7 (amended): bucket exhaustion holds only on ledgers whose
padding bits are 0.  For a well-formed bucket whose `block_count` blocks
are all marked used and whose padding bits
`[block_count, 8 * ceil(block_count / 8))` are all 0 - the Section 3
invariant, which the code itself can break (see the counterexample and C2) -
`allocate` returns null for every request, leaving the bucket
untouched. -/
theorem claim_C7_bucket_exhaustion (bk : Bucket) (bytes : Nat)
    (hwf : bk.WF) (hb : 1 ≤ bytes)
    (hused : ∀ k, k < bk.BlockCount → ledgerBit bk.ledger k = true)
    (hpad : ∀ k, k < 8 * bk.ledger.length → bk.BlockCount ≤ k →
      ledgerBit bk.ledger k = false) :
    bk.allocate bytes = (none, bk) := by
  obtain ⟨hbs, hbc, hlen, hwfl⟩ := hwf
  exact allocate_none_of_allUsed bk bytes hbc hlen hused
    (fun k h1 h2 => hpad k h2 h1)

/-- Claim C7 witness: block size 4, block count 9, all nine blocks used
(ledger `[255, 128]`), a 1-byte request. -/
theorem claim_C7_bucket_exhaustion_witness :
    (⟨4, 9, 0, [255, 128]⟩ : Bucket).WF ∧ (1 : Nat) ≤ 1 ∧
    (∀ k, k < (⟨4, 9, 0, [255, 128]⟩ : Bucket).BlockCount →
      ledgerBit [255, 128] k = true) ∧
    (∀ k, k < 8 * ([255, 128] : List Nat).length →
      (⟨4, 9, 0, [255, 128]⟩ : Bucket).BlockCount ≤ k →
      ledgerBit [255, 128] k = false) ∧
    Bucket.allocate ⟨4, 9, 0, [255, 128]⟩ 1 = (none, ⟨4, 9, 0, [255, 128]⟩) :=
  ⟨by unfold Bucket.WF WFledger; decide, by decide, by decide, by decide,
   claim_C7_bucket_exhaustion ⟨4, 9, 0, [255, 128]⟩ 1
     (by unfold Bucket.WF WFledger; decide) (by decide) (by decide) (by decide)⟩

/-- Claim C8: a deallocate whose address no bucket owns is a silent no-op:
the dispatcher scans the pool, no `belongs` test holds, and the pool (hence
every ledger) is returned unchanged. -/
theorem claim_C8_foreign_dealloc_noop (pool : List Bucket) (ptr bytes : Nat)
    (h : ∀ bk ∈ pool, bk.belongs ptr = false) :
    MPA.deallocate pool ptr bytes = pool :=
  deallocLoop_noop ptr bytes pool h

/-- Claim C8 witness: two buckets with arenas `[0, 128)` and `[200, 216)`,
and the foreign address 1000. -/
theorem claim_C8_foreign_dealloc_noop_witness :
    (∀ bk ∈ ([⟨8, 16, 0, [255, 255]⟩, ⟨4, 4, 200, [240]⟩] : List Bucket),
      bk.belongs 1000 = false) ∧
    MPA.deallocate [⟨8, 16, 0, [255, 255]⟩, ⟨4, 4, 200, [240]⟩] 1000 8 =
      [⟨8, 16, 0, [255, 255]⟩, ⟨4, 4, 200, [240]⟩] :=
  ⟨by decide,
   claim_C8_foreign_dealloc_noop [⟨8, 16, 0, [255, 255]⟩, ⟨4, 4, 200, [240]⟩]
     1000 8 (by decide)⟩

/-- Claim C9 counterexample: the claim as stated is false.  With
`block_size = 2 * 10 ^ 18` the zero-byte request yields
`n = 1 + (2 ^ 64 - 1) / block_size = 10`, and a fresh bucket with
`block_count = 9 < 10` still hands out an address: the scan counts the
seven zero padding bits of the two-byte ledger, finds a 10-bit run, and
`allocate(0)` returns the arena base instead of null. -/
theorem claim_C9_counterexample :
    blocksNeeded 2000000000000000000 0 = 1 + (2 ^ 64 - 1) / 2000000000000000000 ∧
    blocksNeeded 2000000000000000000 0 = 10 ∧
    (9 : Nat) < 10 ∧
    (Bucket.allocate ⟨2000000000000000000, 9, 0, [0, 0]⟩ 0).1 = some 0 := by
  decide

/-- Claim C9 (amended): a zero-byte request computes
`n = 1 + ((0 - 1) / block_size)` under unsigned 64-bit wraparound, i.e.
`n = 1 + (2 ^ 64 - 1) / block_size`; for every pool in which each bucket's
ledger bit capacity `8 * ceil(block_count / 8)` is smaller than its `n`
(rather than `block_count` alone, because the scan also counts padding
bits), every bucket returns null, so the dispatcher's `allocate(0)` throws
`std::bad_alloc` and every ledger is left unchanged. -/
theorem claim_C9_zero_request_amended (pool : List Bucket)
    (h : ∀ i, i < pool.length →
      (pool.getD i defaultBucket).ledger.length =
        ledgerSize (pool.getD i defaultBucket).BlockCount ∧
      8 * ledgerSize (pool.getD i defaultBucket).BlockCount <
        blocksNeeded (pool.getD i defaultBucket).BlockSize 0) :
    (∀ blockSize, blocksNeeded blockSize 0 = 1 + (U64 - 1) / blockSize) ∧
    MPA.allocate pool 0 = (none, pool) := by
  constructor
  · intro blockSize
    unfold blocksNeeded
    rw [Nat.zero_add, Nat.mod_eq_of_lt (by unfold U64; omega)]
  · have h' : ∀ i, ((pool.getD i defaultBucket).allocate 0).1 = none := by
      intro i
      by_cases hi : i < pool.length
      · obtain ⟨hlen, hcap⟩ := h i hi
        rw [allocate_none_of_bits_lt _ 0 (by rw [hlen]; exact hcap)]
      · rw [List.getD_eq_default _ _ (by omega), defaultBucket_allocate_none]
    exact tryAllocate_none pool 0 h' _

/-- Claim C9 witness: a one-bucket pool (block size 8, block count 16,
fresh two-byte ledger); its bit capacity 16 is far below
`n = 1 + (2 ^ 64 - 1) / 8`. -/
theorem claim_C9_zero_request_amended_witness :
    (∀ i, i < ([⟨8, 16, 0, [0, 0]⟩] : List Bucket).length →
      (([⟨8, 16, 0, [0, 0]⟩] : List Bucket).getD i defaultBucket).ledger.length =
        ledgerSize (([⟨8, 16, 0, [0, 0]⟩] : List Bucket).getD i
          defaultBucket).BlockCount ∧
      8 * ledgerSize (([⟨8, 16, 0, [0, 0]⟩] : List Bucket).getD i
          defaultBucket).BlockCount <
        blocksNeeded (([⟨8, 16, 0, [0, 0]⟩] : List Bucket).getD i
          defaultBucket).BlockSize 0) ∧
    ((∀ blockSize, blocksNeeded blockSize 0 = 1 + (U64 - 1) / blockSize) ∧
      MPA.allocate [⟨8, 16, 0, [0, 0]⟩] 0 = (none, [⟨8, 16, 0, [0, 0]⟩])) :=
  ⟨by decide, claim_C9_zero_request_amended [⟨8, 16, 0, [0, 0]⟩] (by decide)⟩

/-- Claim C10: idempotence of the bit-range updates.  When the touched bits
`[i, i+n)` lie inside the (well-formed) ledger, `set_free` twice equals
`set_free` once, likewise `set_used`; consequently `bucket::deallocate`
applied twice with the same arguments leaves the same ledger as applying it
once. -/
theorem claim_C10_idempotence (l : List Nat) (i n : Nat) (bk : Bucket)
    (ptr bytes : Nat) (hwf : WFledger l) (hle : i + n ≤ 8 * l.length)
    (hbwf : WFledger bk.ledger)
    (hble : (ptr - bk.base) / bk.BlockSize + blocksNeeded bk.BlockSize bytes ≤
      8 * bk.ledger.length) :
    set_free (set_free l i n) i n = set_free l i n ∧
    set_used (set_used l i n) i n = set_used l i n ∧
    (bk.deallocate ptr bytes).deallocate ptr bytes = bk.deallocate ptr bytes := by
  refine ⟨set_free_idem l i n hwf hle, set_used_idem l i n hwf hle, ?_⟩
  obtain ⟨bs, bc, ba, bl⟩ := bk
  simp only at hbwf hble
  simp only [Bucket.deallocate] at hble ⊢
  rw [set_free_idem bl _ _ hbwf hble]

/-- Claim C10 witness: ledger `[255, 0]` with the range starting at block 2
of length 5, and a bucket round of `deallocate(3, 2)` on 1-byte blocks. -/
theorem claim_C10_idempotence_witness :
    WFledger ([255, 0] : List Nat) ∧ (2 : Nat) + 5 ≤ 8 * 2 ∧
    WFledger (⟨1, 16, 0, [255, 0]⟩ : Bucket).ledger ∧
    ((3 : Nat) - 0) / 1 + blocksNeeded 1 2 ≤ 8 * 2 ∧
    (set_free (set_free [255, 0] 2 5) 2 5 = set_free [255, 0] 2 5 ∧
     set_used (set_used [255, 0] 2 5) 2 5 = set_used [255, 0] 2 5 ∧
     (Bucket.deallocate (Bucket.deallocate ⟨1, 16, 0, [255, 0]⟩ 3 2) 3 2 =
       Bucket.deallocate ⟨1, 16, 0, [255, 0]⟩ 3 2)) :=
  ⟨by unfold WFledger; decide, by decide, by unfold WFledger; decide, by decide,
   claim_C10_idempotence [255, 0] 2 5 ⟨1, 16, 0, [255, 0]⟩ 3 2
     (by unfold WFledger; decide) (by decide) (by unfold WFledger; decide)
     (by decide)⟩

end MemPool
